import Mathlib

/-!
Verification of the individual activity-recognition model
(src/model/individual/{model,core,modules}.py) against its specification.

The Python source is shallowly embedded: tensors become (nested) lists over
an ordered field (rationals where the computation is exact, reals where
`exp`/`log` enter), boolean masks become `List Bool`, and the training /
inference branch is an explicit parameter.  Shape arithmetic of strided
convolutions is embedded as arithmetic on `Nat`.
-/

/- ================================================================
   Python calling convention (for the arity of `Q.forward`)
   ================================================================ -/

/-- Parameter names of `Q.forward` in src/model/individual/core.py line 55:
`def forward(self, x_vis, x_spc, mask, stage)` (excluding `self`).
None of them has a default value. -/
def qForwardParams : List String := ["x_vis", "x_spc", "mask", "stage"]

/-- Number of parameters of `Q.forward` that carry a default value. -/
def qForwardNumDefaults : Nat := 0

/-- Positional arguments passed at the call site
`self.Q(x_vis, x_spc, mask)` in
`IndividualActivityRecognition.forward` (src/model/individual/model.py line 29). -/
def modelForwardQArgs : List String := ["x_vis", "x_spc", "mask"]

/-- A Python call with only positional arguments binds (does not raise
`TypeError`) iff the number of arguments is at least the number of
parameters without defaults and at most the total number of parameters. -/
def pythonCallBinds (numParams numDefaults numArgs : Nat) : Bool :=
  decide (numParams - numDefaults ≤ numArgs) && decide (numArgs ≤ numParams)

/- ================================================================
   Convolution shape arithmetic (Embedding, modules.py lines 41-68)
   ================================================================ -/

/-- Output length along one axis of a PyTorch convolution with no padding and
dilation 1: `floor((n - k) / s) + 1` (valid when `k ≤ n`). -/
def convOutLen (n k s : Nat) : Nat := (n - k) / s + 1

/-- Length of the time axis (the height axis of the `(b, 1, seq_len, n_pts*2)`
view) after `Embedding.conv1`, `conv2`, `conv3`
(modules.py lines 44-58): height kernels 10, 5, 5 with strides 5, 3, 1. -/
def embedTimeLen (seqLen : Nat) : Nat :=
  convOutLen (convOutLen (convOutLen seqLen 10 5) 5 3) 5 1

/-- Length of the keypoint-coordinate axis (the width axis, `n_pts * 2`) after
the same three convolutions: all width kernels and width strides are 1. -/
def embedWidthLen (w : Nat) : Nat :=
  convOutLen (convOutLen (convOutLen w 1 1) 1 1) 1 1

/-- Number of output tokens of `Embedding.forward` (modules.py lines 60-68):
after `squeeze(2)` and `permute(0, 2, 1)` the token axis is the width axis. -/
def embeddingOutTokens (nPts : Nat) : Nat := embedWidthLen (nPts * 2)

/-- One single-channel convolution along the height axis with width kernel 1
and width stride 1, the shape of every convolution inside `Embedding`:
`out[h][w] = sum over kh of weight[kh] * x[h * stride + kh][w]`. -/
def convHK1 (weight : List ℚ) (stride : Nat) (x : List (List ℚ)) :
    List (List ℚ) :=
  (List.range (convOutLen x.length weight.length stride)).map (fun h =>
    (List.range (x.headD []).length).map (fun w =>
      ((List.range weight.length).map (fun kh =>
        weight.getD kh 0 * (x.getD (h * stride + kh) []).getD w 0)).sum))

/- ================================================================
   Masked reconstruction losses (model.py lines 52-75)
   ================================================================ -/

/-- Boolean-mask indexing `x[~mask]`: keep, in order, the entries of `xs`
whose mask bit is `false`. -/
def maskedSelect {α : Type} (xs : List α) (mask : List Bool) : List α :=
  ((xs.zip mask).filter (fun pr => pr.2 = false)).map Prod.fst

/-- Sum of squared differences of two equally-shaped rows. -/
def sqDiffSum (a b : List ℚ) : ℚ :=
  (List.zipWith (fun u v => (u - v) ^ 2) a b).sum

/-- Total number of scalar elements of a list of rows. -/
def numel (xs : List (List ℚ)) : Nat := (xs.map List.length).sum

/-- Sum-reduced mean-squared-error, `F.mse_loss(x, y, reduction="sum")`. -/
def mseLossSum (x y : List (List ℚ)) : ℚ := (List.zipWith sqDiffSum x y).sum

/-- Mean-reduced mean-squared-error, `F.mse_loss(x, y, reduction="mean")`:
the sum of squared differences divided by the element count.  A reduction
over zero elements is `0 / 0 = NaN` in floating point, embedded as `none`. -/
def mseLossMean (x y : List (List ℚ)) : Option ℚ :=
  if numel x = 0 then none else some (mseLossSum x y / (numel x : ℚ))

/-- Visual reconstruction loss of `loss_func` (model.py line 68):
mean-reduced MSE over the unmasked timesteps. -/
def lrcVis (x fake : List (List ℚ)) (mask : List Bool) : Option ℚ :=
  mseLossMean (maskedSelect x mask) (maskedSelect fake mask)

/-- Spatial reconstruction loss of `loss_func` (model.py line 73):
sum-reduced MSE over the unmasked timesteps. -/
def lrcSpc (x fake : List (List ℚ)) (mask : List Bool) : ℚ :=
  mseLossSum (maskedSelect x mask) (maskedSelect fake mask)

/- ================================================================
   GaussianVectorQuantizer (modules.py lines 119-221)
   ================================================================ -/

section Quantizer

variable {K : Type} [LinearOrderedField K]

/-- Dot product of two rows. -/
def dotRow (a b : List K) : K := (List.zipWith (· * ·) a b).sum

/-- Row of squared Euclidean distances from one encoder vector `z` to every
code of a codebook, `GaussianVectorQuantizer.calc_distance`
(modules.py lines 138-144): `sum(z^2) + sum(c^2) - 2 * (z . c)`. -/
def calc_distance (z : List K) (book : List (List K)) : List K :=
  book.map (fun c => dotRow z z + dotRow c c - 2 * dotRow z c)

/-- Index of the first occurrence of the maximum together with the maximum
value (`torch.argmax` returns the first maximal index). -/
def argmaxAux : List K → Nat × K
  | [] => (0, 0)
  | [x] => (0, x)
  | x :: y :: xs =>
    let p := argmaxAux (y :: xs)
    if x < p.2 then (p.1 + 1, p.2) else (0, x)

/-- First index attaining the maximum of a list, `torch.argmax`. -/
def argmaxIdx (l : List K) : Nat := (argmaxAux l).1

/-- One-hot row of length `n` with the 1 at index `idx`, the effect of
`encodings.scatter_(2, indices, 1)` on a zero tensor (modules.py 203-209). -/
def oneHot : Nat → Nat → List K
  | 0, _ => []
  | n + 1, 0 => 1 :: List.replicate n 0
  | n + 1, j + 1 => 0 :: oneHot n j

/-- Scale a row by a scalar. -/
def scaleVec (w : K) (row : List K) : List K := row.map (fun a => w * a)

/-- Elementwise sum of two rows. -/
def addVec (a b : List K) : List K := List.zipWith (· + ·) a b

/-- Product of a weight row with a matrix of codebook rows,
`torch.matmul(encoding, book)` for one point: the weighted sum of the
codebook rows (rows of width `d`). -/
def vecMatmul (d : Nat) (e : List K) (book : List (List K)) : List K :=
  (List.zipWith scaleVec e book).foldr addVec (List.replicate d 0)

/-- Codebook chosen by the inference branch (modules.py lines 191-192):
`self.books[idx]` for `idx = c_logits.argmax(dim=-1)` of the example. -/
def selectedBook (books : List (List (List K))) (cLogits : List K) :
    List (List K) :=
  books.getD (argmaxIdx cLogits) []

/-- Logits of one point against one codebook (modules.py lines 175, 193):
negative squared distances scaled by the annealed precision. -/
def bookLogit (precQ : K) (z : List K) (book : List (List K)) : List K :=
  (calc_distance z book).map (fun dd => -dd * precQ)

/-- Inference branch of `GaussianVectorQuantizer.forward`
(modules.py lines 188-210) for one example of `b` points: the codebook is
hard-selected by arg-max of the example's cluster logits, the per-point
logits are `-distance * precision_q`, and `zq` is the one-hot (arg-max)
row mix of the selected codebook, `torch.matmul(encodings, books)`. -/
def quantizerInferExample (d : Nat) (precQ : K)
    (books : List (List (List K))) (ze : List (List K)) (cLogits : List K) :
    List (List K) :=
  let book := selectedBook books cLogits
  ze.map (fun z =>
    vecMatmul d (oneHot book.length (argmaxIdx (bookLogit precQ z book))) book)

end Quantizer

/- ================================================================
   Real-valued parts: softmax, gumbel relaxation, precision, KL losses
   ================================================================ -/

/-- Softmax of a row, `torch.softmax(l, dim=-1)`. -/
noncomputable def softmaxR (l : List ℝ) : List ℝ :=
  l.map (fun x => Real.exp x / (l.map Real.exp).sum)

/-- Log-softmax of a row, `torch.log_softmax(l, dim=-1)`. -/
noncomputable def logSoftmaxR (l : List ℝ) : List ℝ :=
  l.map (fun x => x - Real.log ((l.map Real.exp).sum))

/-- Gumbel noise derived from one uniform sample `U`, as in
`GaussianVectorQuantizer.gumbel_softmax_relaxation` (modules.py lines 146-150):
`g = -log(-log(U + eps) + eps)`. -/
noncomputable def gumbelNoise (eps u : ℝ) : ℝ :=
  -Real.log (-Real.log (u + eps) + eps)

/-- Gumbel-softmax relaxation of a logits row given the uniform samples `us`
(modules.py lines 146-150): `softmax((logits + g) / temperature)`. -/
noncomputable def gumbel_softmax_relaxation (temp eps : ℝ) (logits us : List ℝ) : List ℝ :=
  softmaxR (List.zipWith (fun l u => (l + gumbelNoise eps u) / temp) logits us)

/-- Clamp from below, `torch.clamp(v, min=m)`. -/
noncomputable def clampMin (v m : ℝ) : ℝ := max v m

/-- Annealed precision computed by `GaussianVectorQuantizer.forward`
(modules.py lines 156-157 and 160-161):
`0.5 / clamp(1 + exp(log_param_q), min=1e-10)`. -/
noncomputable def precisionTransform (logParamQ : ℝ) : ℝ :=
  0.5 / clampMin (1 + Real.exp logParamQ) 1e-10

/-- Precision-weighted mixture of the per-book logits of one point
accumulated by the training branch (modules.py lines 171-176):
`logit = sum over books j of (-distance_j * precision_q) * c_prob[j]`,
starting from a zero row of width `book_size`. -/
noncomputable def mixedLogit (bookSize : Nat) (precQ : ℝ) (cProb : List ℝ)
    (books : List (List (List ℝ))) (z : List ℝ) : List ℝ :=
  (List.zipWith (fun w bk => scaleVec w (bookLogit precQ z bk)) cProb books).foldr
    addVec (List.replicate bookSize 0)

/-- Relaxed quantized output of one point accumulated by the training branch
(modules.py lines 177-178): `zq = sum over books j of
(gumbel_relax(logit_j) . book_j) * c_prob[j]`, one uniform-sample row per
book for this point. -/
noncomputable def mixedZq (d : Nat) (temp precQ : ℝ) (cProb : List ℝ)
    (books : List (List (List ℝ))) (z : List ℝ) (uCode : List (List ℝ)) :
    List ℝ :=
  (List.zipWith (fun w pr =>
      scaleVec w (vecMatmul d
        (gumbel_softmax_relaxation temp 1e-10 (bookLogit precQ z pr.1) pr.2)
        pr.1))
    cProb (books.zip uCode)).foldr addVec (List.replicate d 0)

/-- Return value of `GaussianVectorQuantizer.forward` for one example
(modules.py line 221), without the scalar `precision_q`. -/
structure QuantizerOut where
  zq : List (List ℝ)
  logits : List (List ℝ)
  prob : List (List ℝ)
  log_prob : List (List ℝ)

/-- Training branch of `GaussianVectorQuantizer.forward`
(modules.py lines 152-186 and 214-219) for one example:
`precision_q` and `precision_q_cls` come from the two log-parameters, the
relaxed cluster weighting `c_prob` is drawn from `c_logit * precision_q_cls`
with the uniform samples `uCls`, every codebook contributes the
precision-weighted mixture of its logits and of its relaxed one-hot code
mixes (`uCode`: one uniform row per book and point), and `prob` / `log_prob`
are the softmax and log-softmax of the mixed logits. -/
noncomputable def quantizerTrainExample (d bookSize : Nat) (temp lpq lpqCls : ℝ)
    (books : List (List (List ℝ))) (ze : List (List ℝ)) (cLogit : List ℝ)
    (uCls : List ℝ) (uCode : List (List (List ℝ))) : QuantizerOut :=
  let precQ := precisionTransform lpq
  let precQcls := precisionTransform lpqCls
  let cProb :=
    gumbel_softmax_relaxation temp 1e-10 (cLogit.map (· * precQcls)) uCls
  let logits := ze.map (fun z => mixedLogit bookSize precQ cProb books z)
  { zq := (ze.zip uCode).map (fun pr =>
      mixedZq d temp precQ cProb books pr.1 pr.2)
    logits := logits
    prob := logits.map softmaxR
    log_prob := logits.map logSoftmaxR }

/-- Gaussian-KL summand of `IndividualActivityRecognition.loss_kl_gaussian`
(model.py lines 38-46) at one element. -/
noncomputable def klGaussTerm (m logv m_p logv_p : ℝ) : ℝ :=
  1 + logv - logv_p - Real.exp logv / Real.exp logv_p
    - (m_p - m) ^ 2 / Real.exp logv_p

/-- Elementwise sum of the Gaussian-KL summands over four equally-shaped
tensors (flattened to lists). -/
noncomputable def klGaussSum : List ℝ → List ℝ → List ℝ → List ℝ → ℝ
  | a :: as, b :: bs, c :: cs, e :: es =>
    klGaussTerm a b c e + klGaussSum as bs cs es
  | _, _, _, _ => 0

/-- Gaussian KL loss `loss_kl_gaussian` (model.py lines 38-46):
`-0.5 * sum(1 + logv - logv_p - exp(logv)/exp(logv_p) - (m_p - m)^2 / exp(logv_p))`. -/
noncomputable def loss_kl_gaussian (m logv m_p logv_p : List ℝ) : ℝ :=
  -0.5 * klGaussSum m logv m_p logv_p

/-- Categorical KL loss `loss_kl_clustering` (model.py lines 48-50):
`sum(q * (log(q + eps) - log(p + eps)))`. -/
noncomputable def loss_kl_clustering (q p : List ℝ) (eps : ℝ) : ℝ :=
  (List.zipWith (fun qi pi =>
    qi * (Real.log (qi + eps) - Real.log (pi + eps))) q p).sum

/-- Uniform prior over clusters built by `loss_func` (model.py line 83):
`torch.ones(n) / n`. -/
noncomputable def uniformDist (n : Nat) : List ℝ := List.replicate n ((1 : ℝ) / n)

/- ================================================================
   Encoder attention-weight bookkeeping (modules.py lines 89-116)
   ================================================================ -/

/-- Layer loop of `Encoder.forward` (modules.py lines 104-116): every layer
(a `TransformerEncoderBlock`, defined outside this sub-repository, hence
abstract here) maps its input to an updated sequence and attention weights.
In training mode the weights are discarded and `attn_w_tensor` is `None`;
otherwise one weight map per layer is collected and stacked with
`torch.cat`, which raises on an empty list (modelled by `none`, reachable
only with zero layers). -/
def encoderLayerLoop {Z W : Type} (layers : List (Z → Z × W)) (z : Z)
    (isTrain : Bool) : Z × Option (List W) :=
  if isTrain then
    (layers.foldl (fun acc layer => (layer acc).1) z, none)
  else
    let final := layers.foldl (fun (acc : Z × List W) layer =>
      ((layer acc.1).1, acc.2 ++ [(layer acc.1).2])) (z, [])
    (final.1, if final.2.isEmpty then none else some final.2)

/- ================================================================
   Theorems: C1 and C2 shape facts (more claims follow below)
   ================================================================ -/

/-- C1 (code_bug evidence): the call `self.Q(x_vis, x_spc, mask)` inside
`IndividualActivityRecognition.forward` passes 3 positional arguments to
`Q.forward`, which has 4 parameters and no defaults, so the call raises
`TypeError` instead of returning `(z, mu, logvar, y)`; the primary-path
`forward` therefore never returns its 7-tuple. -/
theorem primary_forward_q_call_raises_type_error :
    pythonCallBinds qForwardParams.length qForwardNumDefaults
      modelForwardQArgs.length = false := by decide

/-- C2 (counterexample): on the intended input length `seq_len = 90`
(the lengths annotated in modules.py lines 48, 53, 58), the time axis of the
quantization-variant embedder output has length 1, not `seq_len = 90`:
the embedder is not shape-preserving across the time axis. -/
theorem embedding_time_axis_counterexample :
    embedTimeLen 90 = 1 ∧ embedTimeLen 90 ≠ 90 := by decide

/- ================================================================
   Helper lemmas
   ================================================================ -/

theorem kl_clustering_self (q : List ℝ) (eps : ℝ) :
    loss_kl_clustering q q eps = 0 := by
  induction q with
  | nil => simp [loss_kl_clustering]
  | cons a as ih =>
    simp only [loss_kl_clustering, List.zipWith_cons_cons, List.sum_cons,
      sub_self, mul_zero, zero_add] at ih ⊢
    exact ih

theorem clampMin_precision_eq (x : ℝ) :
    clampMin (1 + Real.exp x) 1e-10 = 1 + Real.exp x := by
  have h := Real.exp_pos x
  unfold clampMin
  rw [max_eq_left]
  nlinarith

theorem encoderLoopAttnLen {Z W : Type} (layers : List (Z → Z × W)) (z : Z)
    (acc : List W) :
    (layers.foldl (fun (acc : Z × List W) layer =>
      ((layer acc.1).1, acc.2 ++ [(layer acc.1).2])) (z, acc)).2.length
      = acc.length + layers.length := by
  induction layers generalizing z acc with
  | nil => simp
  | cons l ls ih =>
    simp only [List.foldl_cons, List.length_cons]
    rw [ih]
    simp
    omega

/- ================================================================
   Claim theorems (with witnesses)
   ================================================================ -/

/-- C6: for `y` equal to the uniform distribution produced by `loss_func`
(`torch.ones(n) / n`), the categorical-KL term
`loss_kl_clustering(y, uniform)` with the default `eps = 1e-20` is exactly 0:
the epsilon-shifted logarithms cancel elementwise. -/
theorem kl_clustering_uniform_is_zero (n : Nat) :
    loss_kl_clustering (uniformDist n) (uniformDist n) 1e-20 = 0 :=
  kl_clustering_self (uniformDist n) 1e-20

/-- C8: the precision transform `0.5 / clamp(1 + exp(log_param_q), min=1e-10)`
(modules.py lines 156-157) is strictly decreasing in `log_param_q`, and on
every finite input its value is strictly positive and at most 0.5. -/
theorem precision_transform_decreasing_bounded (x y : ℝ) (hxy : x < y) :
    precisionTransform y < precisionTransform x ∧
      0 < precisionTransform x ∧ precisionTransform x ≤ 0.5 := by
  have hex := Real.exp_pos x
  have hey := Real.exp_pos y
  unfold precisionTransform
  rw [clampMin_precision_eq, clampMin_precision_eq]
  have hx1 : (0 : ℝ) < 1 + Real.exp x := by linarith
  have hy1 : (0 : ℝ) < 1 + Real.exp y := by linarith
  refine ⟨?_, ?_, ?_⟩
  · exact div_lt_div_of_pos_left (by norm_num) hx1
      (by have := Real.exp_lt_exp.mpr hxy; linarith)
  · positivity
  · rw [div_le_iff₀ hx1]; nlinarith

/-- Witness for C8 at the concrete pair `(0, 1)`. -/
theorem precision_transform_decreasing_bounded_witness :
    (0 : ℝ) < 1 ∧
      (precisionTransform 1 < precisionTransform 0 ∧
        0 < precisionTransform 0 ∧ precisionTransform 0 ≤ 0.5) :=
  ⟨by norm_num, precision_transform_decreasing_bounded 0 1 (by norm_num)⟩

/-- C10: the quantization-variant encoder layer loop returns attention
weights `None` in training mode and, in inference mode (with at least one
layer, as configured), a non-`None` stack holding exactly one attention-weight
map per encoder layer. -/
theorem encoder_attn_weights_none_iff_train {Z W : Type}
    (layers : List (Z → Z × W)) (z : Z) (hne : layers ≠ []) :
    (encoderLayerLoop layers z true).2 = none ∧
      ∃ ws, (encoderLayerLoop layers z false).2 = some ws ∧
        ws.length = layers.length := by
  have hlen := encoderLoopAttnLen layers z ([] : List W)
  simp only [List.length_nil, Nat.zero_add] at hlen
  have hne2 : (layers.foldl (fun (acc : Z × List W) layer =>
      ((layer acc.1).1, acc.2 ++ [(layer acc.1).2])) (z, [])).2 ≠ [] := by
    intro hc
    apply hne
    apply List.length_eq_zero.mp
    rw [← hlen, hc]
    rfl
  have hne' : (layers.foldl (fun (acc : Z × List W) layer =>
      ((layer acc.1).1, acc.2 ++ [(layer acc.1).2])) (z, [])).2.isEmpty
        = false := by
    cases hfold : (layers.foldl (fun (acc : Z × List W) layer =>
        ((layer acc.1).1, acc.2 ++ [(layer acc.1).2])) (z, [])).2 with
    | nil => exact absurd hfold hne2
    | cons a t => rfl
  refine ⟨by simp [encoderLayerLoop], ⟨_, ?_, hlen⟩⟩
  simp [encoderLayerLoop, hne']

/-- Witness for C10 with one identity-like layer over rational states. -/
theorem encoder_attn_weights_none_iff_train_witness :
    ([fun q : ℚ => (q, q)] ≠ []) ∧
      ((encoderLayerLoop [fun q : ℚ => (q, q)] 1 true).2 = none ∧
        ∃ ws, (encoderLayerLoop [fun q : ℚ => (q, q)] 1 false).2 = some ws ∧
          ws.length = [fun q : ℚ => (q, q)].length) :=
  ⟨by simp, encoder_attn_weights_none_iff_train [fun q : ℚ => (q, q)] 1
    (by simp)⟩

/-- Unfolding of `maskedSelect` at a cons cell. -/
theorem maskedSelect_cons {α : Type} (x : α) (xs : List α) (b : Bool)
    (ms : List Bool) :
    maskedSelect (x :: xs) (b :: ms)
      = if b = false then x :: maskedSelect xs ms else maskedSelect xs ms := by
  cases b <;> simp [maskedSelect, List.filter_cons]

/-- Two tensors agreeing at every unmasked position select identically. -/
theorem maskedSelect_congr {α : Type} (mask : List Bool) (xs ys : List α)
    (hlen : xs.length = ys.length)
    (hag : ∀ i, i < mask.length → mask.getD i true = false →
      xs[i]? = ys[i]?) :
    maskedSelect xs mask = maskedSelect ys mask := by
  induction mask generalizing xs ys with
  | nil => simp [maskedSelect]
  | cons b ms ih =>
    cases xs with
    | nil =>
      cases ys with
      | nil => rfl
      | cons yh yt => simp at hlen
    | cons xh xt =>
      cases ys with
      | nil => simp at hlen
      | cons yh yt =>
        simp only [List.length_cons, Nat.add_right_cancel_iff] at hlen
        have htail := ih xt yt hlen (fun i hi hf => by
          have := hag (i + 1) (by simpa using Nat.succ_lt_succ hi)
            (by simpa using hf)
          simpa using this)
        rw [maskedSelect_cons, maskedSelect_cons]
        cases b with
        | false =>
          have hhead : xh = yh := by
            have := hag 0 (by simp) (by simp)
            simpa using this
          simp [hhead, htail]
        | true => simp [htail]

/-- C7 (confirmed): the masked reconstruction losses of `loss_func`
(model.py lines 67-75) are invariant to the reconstruction values at the
masked positions: if two reconstructions agree at every unmasked position,
`x[~mask]`-based mean MSE (visual) and sum MSE (spatial) coincide. -/
theorem masked_losses_ignore_masked_positions
    (x fk fk' : List (List ℚ)) (mask : List Bool)
    (hlen : fk.length = fk'.length)
    (hag : ∀ i, i < mask.length → mask.getD i true = false →
      fk[i]? = fk'[i]?) :
    lrcVis x fk mask = lrcVis x fk' mask ∧
      lrcSpc x fk mask = lrcSpc x fk' mask := by
  have h := maskedSelect_congr mask fk fk' hlen hag
  rw [lrcVis, lrcVis, lrcSpc, lrcSpc, h]
  exact ⟨rfl, rfl⟩

/-- Witness for C7: the reconstructions agree at the unmasked timestep 0 and
differ at the masked timestep 1; both losses coincide. -/
theorem masked_losses_ignore_masked_positions_witness :
    (([[(3 : ℚ)], [4]] : List (List ℚ)).length = [[(3 : ℚ)], [9]].length) ∧
      (∀ i, i < [false, true].length →
        [false, true].getD i true = false →
        ([[(3 : ℚ)], [4]] : List (List ℚ))[i]? = [[(3 : ℚ)], [9]][i]?) ∧
      (lrcVis [[1], [2]] [[(3 : ℚ)], [4]] [false, true]
          = lrcVis [[1], [2]] [[(3 : ℚ)], [9]] [false, true] ∧
        lrcSpc [[1], [2]] [[(3 : ℚ)], [4]] [false, true]
          = lrcSpc [[1], [2]] [[(3 : ℚ)], [9]] [false, true]) :=
  ⟨by decide, by decide,
    masked_losses_ignore_masked_positions [[1], [2]] [[3], [4]] [[3], [9]]
      [false, true] (by decide) (by decide)⟩

/-- A row at an unmasked in-range index survives `maskedSelect`. -/
theorem getD_mem_maskedSelect {α : Type} (d : α) :
    ∀ (xs : List α) (mask : List Bool) (i : Nat), i < xs.length →
      i < mask.length → mask.getD i true = false →
      xs.getD i d ∈ maskedSelect xs mask := by
  intro xs
  induction xs with
  | nil => intro mask i hx _ _; simp at hx
  | cons xh xt ih =>
    intro mask i hx hm hf
    cases mask with
    | nil => simp at hm
    | cons b ms =>
      rw [maskedSelect_cons]
      cases i with
      | zero =>
        simp only [List.getD_cons_zero] at hf ⊢
        simp [hf]
      | succ j =>
        have hmem := ih ms j (by simpa using hx) (by simpa using hm)
          (by simpa using hf)
        simp only [List.getD_cons_succ]
        cases b with
        | false => simpa using Or.inr hmem
        | true => simpa using hmem

/-- C9: a fully-masked example selects nothing, so the mean-reduced visual
reconstruction loss is an undefined `0 / 0` reduction (`none`); with at
least one unmasked timestep whose row is nonempty, the mean-reduced loss is
well-defined (the sum-reduced spatial loss `lrcSpc` is total). -/
theorem fully_masked_mean_loss_undefined
    (x fk : List (List ℚ)) (n : Nat) (mask : List Bool) (i : Nat)
    (_hn : n = x.length) (hi : i < mask.length) (hix : i < x.length)
    (hfalse : mask.getD i true = false) (hrow : x.getD i [] ≠ []) :
    lrcVis x fk (List.replicate n true) = none ∧
      (lrcVis x fk mask).isSome = true := by
  constructor
  · have hsel : maskedSelect x (List.replicate n true) = [] := by
      rw [maskedSelect, List.map_eq_nil_iff, List.filter_eq_nil_iff]
      intro pr hpr
      have hb := List.eq_of_mem_replicate (List.of_mem_zip hpr).2
      simp [hb]
    rw [lrcVis, hsel]
    rfl
  · have hmem := getD_mem_maskedSelect ([] : List ℚ) x mask i hix hi hfalse
    have hpos : numel (maskedSelect x mask) ≠ 0 := by
      intro hzero
      have hlenmem : (x.getD i []).length ∈ (maskedSelect x mask).map
          List.length := List.mem_map_of_mem List.length hmem
      have hle : (x.getD i []).length ≤ numel (maskedSelect x mask) :=
        List.single_le_sum (fun a _ => Nat.zero_le a) _ hlenmem
      rw [hzero, Nat.le_zero] at hle
      exact hrow (List.eq_nil_of_length_eq_zero hle)
    rw [lrcVis, mseLossMean, if_neg hpos]
    rfl

/-- Witness for C9 at a one-timestep example. -/
theorem fully_masked_mean_loss_undefined_witness :
    ((1 : Nat) = ([[(1 : ℚ)]] : List (List ℚ)).length ∧ 0 < [false].length ∧
        (0 : Nat) < ([[(1 : ℚ)]] : List (List ℚ)).length ∧
        [false].getD 0 true = false ∧
        ([[(1 : ℚ)]] : List (List ℚ)).getD 0 [] ≠ []) ∧
      (lrcVis [[(1 : ℚ)]] [[2]] (List.replicate 1 true) = none ∧
        (lrcVis [[(1 : ℚ)]] [[2]] [false]).isSome = true) :=
  ⟨by decide,
    fully_masked_mean_loss_undefined [[1]] [[2]] 1 [false] 0 (by decide)
      (by decide) (by decide) (by decide) (by decide)⟩

/-- Indexing a mapped range with a default. -/
theorem getD_map_range {α : Type} (d : α) (f : Nat → α) (n i : Nat) :
    ((List.range n).map f).getD i d = if i < n then f i else d := by
  rcases Nat.lt_or_ge i n with h | h
  · rw [if_pos h, List.getD_eq_getElem _ _ (by simpa using h)]
    simp
  · rw [if_neg (Nat.not_lt.mpr h), List.getD_eq_default]
    simpa using h

/-- C2 (amended): the quantization-variant embedder collapses the time axis
(for the configured `seq_len = 90` the three strided convolutions leave a
single time position) and instead keeps one output token per keypoint
coordinate (width axis `n_pts * 2`); each convolution has width kernel 1 and
width stride 1, so the convolutions never mix distinct width positions:
a width column of the output depends only on the same width column of the
input. -/
theorem embedding_collapses_time_and_is_width_pointwise
    (weight : List ℚ) (stride : Nat) (x y : List (List ℚ))
    (w nPts : Nat) (hnp : 0 < nPts)
    (hlen : x.length = y.length)
    (hwid : (x.headD []).length = (y.headD []).length)
    (hag : ∀ h, h < x.length →
      (x.getD h []).getD w 0 = (y.getD h []).getD w 0) :
    embedTimeLen 90 = 1 ∧ embeddingOutTokens nPts = nPts * 2 ∧
      ∀ hh, ((convHK1 weight stride x).getD hh []).getD w 0
          = ((convHK1 weight stride y).getD hh []).getD w 0 := by
  refine ⟨by decide, ?_, ?_⟩
  · unfold embeddingOutTokens embedWidthLen convOutLen
    omega
  · intro hh
    have hag' : ∀ h, (x.getD h []).getD w 0 = (y.getD h []).getD w 0 := by
      intro h
      rcases Nat.lt_or_ge h x.length with hlt | hge
      · exact hag h hlt
      · have hgey : y.length ≤ h := by omega
        rw [List.getD_eq_default _ _ hge, List.getD_eq_default _ _ hgey]
    unfold convHK1
    rw [← hlen, ← hwid]
    rw [getD_map_range, getD_map_range]
    by_cases hout : hh < convOutLen x.length weight.length stride
    · rw [if_pos hout, if_pos hout, getD_map_range, getD_map_range]
      by_cases hw : w < (x.headD []).length
      · rw [if_pos hw, if_pos hw]
        apply congrArg List.sum
        apply List.map_congr_left
        intro kh _
        rw [hag' (hh * stride + kh)]
      · rw [if_neg hw, if_neg hw]
    · rw [if_neg hout, if_neg hout]

/-- Witness for C2 (amended) at a concrete kernel and pair of inputs that
agree in width column 0. -/
theorem embedding_collapses_time_and_is_width_pointwise_witness :
    ((0 : Nat) < 19 ∧
        ([[(1 : ℚ), 2]] : List (List ℚ)).length = [[(1 : ℚ), 3]].length ∧
        (([[(1 : ℚ), 2]] : List (List ℚ)).headD []).length
          = (([[(1 : ℚ), 3]] : List (List ℚ)).headD []).length ∧
        ∀ h, h < ([[(1 : ℚ), 2]] : List (List ℚ)).length →
          (([[(1 : ℚ), 2]] : List (List ℚ)).getD h []).getD 0 0
            = (([[(1 : ℚ), 3]] : List (List ℚ)).getD h []).getD 0 0) ∧
      (embedTimeLen 90 = 1 ∧ embeddingOutTokens 19 = 19 * 2 ∧
        ∀ hh, ((convHK1 [1] 1 [[(1 : ℚ), 2]]).getD hh []).getD 0 0
            = ((convHK1 [1] 1 [[(1 : ℚ), 3]]).getD hh []).getD 0 0) :=
  ⟨⟨by decide, by decide, by decide, by decide⟩,
    embedding_collapses_time_and_is_width_pointwise [1] 1 [[1, 2]] [[1, 3]]
      0 19 (by decide) (by decide) (by decide) (by decide)⟩

/- Lemmas about the arg-max of a list. -/

theorem argmaxAux_le {K : Type} [LinearOrderedField K] (l : List K) :
    ∀ a ∈ l, a ≤ (argmaxAux l).2 := by
  induction l with
  | nil => intro a ha; simp at ha
  | cons x xs ih =>
    intro a ha
    cases xs with
    | nil =>
      rcases List.mem_cons.mp ha with h | h
      · subst h; simp [argmaxAux]
      · simp at h
    | cons y ys =>
      simp only [argmaxAux]
      split
      next hlt =>
        rcases List.mem_cons.mp ha with h | h
        · subst h; exact le_of_lt hlt
        · exact ih a h
      next hnlt =>
        rcases List.mem_cons.mp ha with h | h
        · subst h; exact le_refl _
        · exact le_trans (ih a h) (le_of_not_lt hnlt)

theorem argmaxAux_fst_lt {K : Type} [LinearOrderedField K] (l : List K)
    (h : l ≠ []) : (argmaxAux l).1 < l.length := by
  induction l with
  | nil => exact absurd rfl h
  | cons x xs ih =>
    cases xs with
    | nil => simp [argmaxAux]
    | cons y ys =>
      simp only [argmaxAux]
      split
      · have := ih (by simp)
        simpa using Nat.succ_lt_succ this
      · simp

theorem argmaxAux_getD {K : Type} [LinearOrderedField K] (l : List K)
    (h : l ≠ []) : l.getD (argmaxAux l).1 0 = (argmaxAux l).2 := by
  induction l with
  | nil => exact absurd rfl h
  | cons x xs ih =>
    cases xs with
    | nil => simp [argmaxAux]
    | cons y ys =>
      simp only [argmaxAux]
      split
      · simpa using ih (by simp)
      · simp

/- Lemmas about one-hot rows and the weighted row sum. -/

theorem addVec_zero_right {K : Type} [LinearOrderedField K] (v : List K) :
    addVec v (List.replicate v.length 0) = v := by
  induction v with
  | nil => rfl
  | cons a as ih => simp only [addVec, List.length_cons, List.replicate_succ,
      List.zipWith_cons_cons, add_zero] at ih ⊢; rw [ih]

theorem addVec_zero_left {K : Type} [LinearOrderedField K] (v : List K) :
    addVec (List.replicate v.length 0) v = v := by
  induction v with
  | nil => rfl
  | cons a as ih => simp only [addVec, List.length_cons, List.replicate_succ,
      List.zipWith_cons_cons, zero_add] at ih ⊢; rw [ih]

theorem scaleVec_zero {K : Type} [LinearOrderedField K] (v : List K) :
    scaleVec 0 v = List.replicate v.length 0 := by
  induction v with
  | nil => rfl
  | cons a as ih => simp only [scaleVec, List.map_cons, zero_mul,
      List.length_cons, List.replicate_succ] at ih ⊢; rw [ih]

theorem scaleVec_one {K : Type} [LinearOrderedField K] (v : List K) :
    scaleVec 1 v = v := by
  simp [scaleVec]

theorem zeros_vecMatmul {K : Type} [LinearOrderedField K]
    (rows : List (List K)) (n d : Nat) (h : ∀ r ∈ rows, r.length = d) :
    (List.zipWith scaleVec (List.replicate n (0 : K)) rows).foldr addVec
      (List.replicate d 0) = List.replicate d 0 := by
  induction rows generalizing n with
  | nil => cases n <;> rfl
  | cons r rs ih =>
    cases n with
    | zero => rfl
    | succ m =>
      simp only [List.replicate_succ, List.zipWith_cons_cons, List.foldr_cons]
      rw [ih m (fun r2 hr2 => h r2 (List.mem_cons_of_mem _ hr2)),
        scaleVec_zero, h r (List.mem_cons_self _ _)]
      have hz := addVec_zero_left (K := K) (List.replicate d 0)
      simpa using hz

theorem vecMatmul_oneHot {K : Type} [LinearOrderedField K]
    (book : List (List K)) (j d : Nat) (hj : j < book.length)
    (hr : ∀ r ∈ book, r.length = d) :
    vecMatmul d (oneHot book.length j) book = book.getD j [] := by
  induction book generalizing j with
  | nil => simp at hj
  | cons r rs ih =>
    have hrs : ∀ r2 ∈ rs, r2.length = d :=
      fun r2 hr2 => hr r2 (List.mem_cons_of_mem _ hr2)
    cases j with
    | zero =>
      simp only [vecMatmul, List.length_cons, oneHot,
        List.zipWith_cons_cons, List.foldr_cons, List.getD_cons_zero]
      rw [zeros_vecMatmul rs rs.length d hrs, scaleVec_one,
        ← hr r (List.mem_cons_self _ _), addVec_zero_right]
    | succ i =>
      have hi : i < rs.length := by simpa using hj
      have hlen : (rs.getD i []).length = d := by
        apply hrs
        rw [List.getD_eq_getElem _ _ hi]
        exact List.getElem_mem _
      rw [List.getD_cons_succ]
      calc vecMatmul d (oneHot (r :: rs).length (i + 1)) (r :: rs)
          = addVec (scaleVec 0 r)
              (vecMatmul d (oneHot rs.length i) rs) := by
            simp only [vecMatmul, List.length_cons, oneHot,
              List.zipWith_cons_cons, List.foldr_cons]
        _ = addVec (List.replicate d 0) (rs.getD i []) := by
            rw [scaleVec_zero, hr r (List.mem_cons_self _ _), ih i hi hrs]
        _ = rs.getD i [] := by
            rw [← hlen]; exact addVec_zero_left _

/-- Indexing a mapped list below its length. -/
theorem getD_map_lt {α β : Type} (f : α → β) (l : List α) (i : Nat)
    (h : i < l.length) (da : α) (db : β) :
    (l.map f).getD i db = f (l.getD i da) := by
  rw [List.getD_eq_getElem _ _ (by simpa using h), List.getD_eq_getElem _ _ h,
    List.getElem_map]

/-- An in-range `getD` is a member. -/
theorem getD_mem_of_lt {α : Type} (l : List α) (i : Nat) (h : i < l.length)
    (d : α) : l.getD i d ∈ l := by
  rw [List.getD_eq_getElem _ _ h]
  exact List.getElem_mem _

/-- C4: in inference mode the quantizer output at every point is exactly one
row of exactly one codebook: the codebook hard-selected by arg-max of the
example's cluster logits, at the row whose logit `-distance * precision` is
maximal, which (the precision being positive) is the nearest code of that
codebook in squared Euclidean distance. -/
theorem quantizer_inference_selects_nearest_code
    {K : Type} [LinearOrderedField K] (d : Nat) (precQ : K)
    (books : List (List (List K))) (ze : List (List K)) (cLogits : List K)
    (p : Nat) (hprec : 0 < precQ) (hcl : cLogits ≠ [])
    (hclen : cLogits.length = books.length)
    (hbooks : ∀ bk ∈ books, bk ≠ [] ∧ ∀ r ∈ bk, r.length = d)
    (hp : p < ze.length) :
    argmaxIdx cLogits < books.length ∧
      ∃ j, j < (selectedBook books cLogits).length ∧
        (quantizerInferExample d precQ books ze cLogits).getD p []
          = (selectedBook books cLogits).getD j [] ∧
        (∀ i, i < (selectedBook books cLogits).length →
          (bookLogit precQ (ze.getD p []) (selectedBook books cLogits)).getD
              i 0
            ≤ (bookLogit precQ (ze.getD p [])
                (selectedBook books cLogits)).getD j 0) ∧
        (∀ i, i < (selectedBook books cLogits).length →
          (calc_distance (ze.getD p [])
              (selectedBook books cLogits)).getD j 0
            ≤ (calc_distance (ze.getD p [])
                (selectedBook books cLogits)).getD i 0) := by
  have hsel : argmaxIdx cLogits < books.length :=
    hclen ▸ argmaxAux_fst_lt cLogits hcl
  have hBmem : selectedBook books cLogits ∈ books := by
    rw [selectedBook, List.getD_eq_getElem _ _ hsel]
    exact List.getElem_mem _
  obtain ⟨hBne, hBrows⟩ := hbooks _ hBmem
  have hLlen : (bookLogit precQ (ze.getD p [])
      (selectedBook books cLogits)).length
      = (selectedBook books cLogits).length := by
    simp [bookLogit, calc_distance]
  have hLne : bookLogit precQ (ze.getD p []) (selectedBook books cLogits)
      ≠ [] := by
    intro hc
    rw [hc] at hLlen
    exact hBne (List.length_eq_zero.mp hLlen.symm)
  have hjlt : argmaxIdx (bookLogit precQ (ze.getD p [])
      (selectedBook books cLogits)) < (selectedBook books cLogits).length := by
    rw [← hLlen]
    exact argmaxAux_fst_lt _ hLne
  have hmax : ∀ i, i < (selectedBook books cLogits).length →
      (bookLogit precQ (ze.getD p []) (selectedBook books cLogits)).getD i 0
        ≤ (bookLogit precQ (ze.getD p [])
            (selectedBook books cLogits)).getD
          (argmaxIdx (bookLogit precQ (ze.getD p [])
            (selectedBook books cLogits))) 0 := by
    intro i hi
    unfold argmaxIdx
    rw [argmaxAux_getD _ hLne]
    exact argmaxAux_le _ _ (getD_mem_of_lt _ i (by rw [hLlen]; exact hi) 0)
  refine ⟨hsel, argmaxIdx (bookLogit precQ (ze.getD p [])
    (selectedBook books cLogits)), hjlt, ?_, hmax, ?_⟩
  · have hmap : (quantizerInferExample d precQ books ze cLogits).getD p []
        = vecMatmul d (oneHot (selectedBook books cLogits).length
            (argmaxIdx (bookLogit precQ (ze.getD p [])
              (selectedBook books cLogits))))
          (selectedBook books cLogits) := by
      simp only [quantizerInferExample]
      exact getD_map_lt _ ze p hp [] []
    rw [hmap, vecMatmul_oneHot _ _ d hjlt hBrows]
  · intro i hi
    have hDlen : (calc_distance (ze.getD p [])
        (selectedBook books cLogits)).length
        = (selectedBook books cLogits).length := by
      simp [calc_distance]
    have hgi : (bookLogit precQ (ze.getD p [])
        (selectedBook books cLogits)).getD i 0
        = -(calc_distance (ze.getD p [])
            (selectedBook books cLogits)).getD i 0 * precQ := by
      rw [bookLogit]
      exact getD_map_lt _ _ i (by rw [hDlen]; exact hi) 0 0
    have hgj : (bookLogit precQ (ze.getD p [])
        (selectedBook books cLogits)).getD
          (argmaxIdx (bookLogit precQ (ze.getD p [])
            (selectedBook books cLogits))) 0
        = -(calc_distance (ze.getD p [])
            (selectedBook books cLogits)).getD
              (argmaxIdx (bookLogit precQ (ze.getD p [])
                (selectedBook books cLogits))) 0 * precQ := by
      rw [bookLogit]
      exact getD_map_lt _ _ _ (by rw [hDlen]; exact hjlt) 0 0
    have hle := hmax i hi
    rw [hgi, hgj] at hle
    have := (mul_le_mul_right hprec).mp hle
    exact neg_le_neg_iff.mp this

/-- Witness for C4 over the rationals: one codebook of two scalar codes 0
and 2, encoder point 3, precision 1/4. -/
theorem quantizer_inference_selects_nearest_code_witness :
    ((0 : ℚ) < 1 / 4 ∧ ([(5 : ℚ)] ≠ []) ∧
        ([(5 : ℚ)].length = ([[[(0 : ℚ)], [2]]] : List (List (List ℚ))).length) ∧
        (∀ bk ∈ ([[[(0 : ℚ)], [2]]] : List (List (List ℚ))),
          bk ≠ [] ∧ ∀ r ∈ bk, r.length = 1) ∧
        (0 < ([[(3 : ℚ)]] : List (List ℚ)).length)) ∧
      (argmaxIdx [(5 : ℚ)] < ([[[(0 : ℚ)], [2]]] : List (List (List ℚ))).length ∧
        ∃ j, j < (selectedBook [[[(0 : ℚ)], [2]]] [5]).length ∧
          (quantizerInferExample 1 (1 / 4) [[[(0 : ℚ)], [2]]] [[3]] [5]).getD
              0 []
            = (selectedBook [[[(0 : ℚ)], [2]]] [5]).getD j [] ∧
          (∀ i, i < (selectedBook [[[(0 : ℚ)], [2]]] [5]).length →
            (bookLogit (1 / 4) (([[(3 : ℚ)]] : List (List ℚ)).getD 0 [])
                (selectedBook [[[(0 : ℚ)], [2]]] [5])).getD i 0
              ≤ (bookLogit (1 / 4) (([[(3 : ℚ)]] : List (List ℚ)).getD 0 [])
                  (selectedBook [[[(0 : ℚ)], [2]]] [5])).getD j 0) ∧
          (∀ i, i < (selectedBook [[[(0 : ℚ)], [2]]] [5]).length →
            (calc_distance (([[(3 : ℚ)]] : List (List ℚ)).getD 0 [])
                (selectedBook [[[(0 : ℚ)], [2]]] [5])).getD j 0
              ≤ (calc_distance (([[(3 : ℚ)]] : List (List ℚ)).getD 0 [])
                  (selectedBook [[[(0 : ℚ)], [2]]] [5])).getD i 0)) :=
  ⟨⟨by norm_num, by simp, by decide, by decide, by decide⟩,
    quantizer_inference_selects_nearest_code 1 (1 / 4) [[[0], [2]]] [[3]] [5]
      0 (by norm_num) (by simp) (by decide) (by decide) (by decide)⟩

/- Lemmas for the Gaussian KL loss. -/

theorem klGaussTerm_nonpos (a b c e : ℝ) : klGaussTerm a b c e ≤ 0 := by
  unfold klGaussTerm
  rw [← Real.exp_sub]
  have h1 := Real.add_one_le_exp (b - e)
  have h2 : (0 : ℝ) ≤ (c - a) ^ 2 / Real.exp e :=
    div_nonneg (sq_nonneg _) (Real.exp_pos e).le
  linarith

theorem klGaussTerm_eq_zero_iff (a b c e : ℝ) :
    klGaussTerm a b c e = 0 ↔ a = c ∧ b = e := by
  unfold klGaussTerm
  rw [← Real.exp_sub]
  constructor
  · intro h0
    have h1 := Real.add_one_le_exp (b - e)
    have h2 : (0 : ℝ) ≤ (c - a) ^ 2 / Real.exp e :=
      div_nonneg (sq_nonneg _) (Real.exp_pos e).le
    have hA : 1 + (b - e) - Real.exp (b - e) = 0 := by linarith
    have hB : (c - a) ^ 2 / Real.exp e = 0 := by linarith
    have hbe : b = e := by
      by_contra hbe
      have := Real.add_one_lt_exp (x := b - e) (by intro hc; exact hbe (by linarith))
      linarith
    have hca : (c - a) ^ 2 = 0 := by
      rcases div_eq_zero_iff.mp hB with h | h
      · exact h
      · exact absurd h (Real.exp_ne_zero e)
    have : c - a = 0 := by
      have := sq_eq_zero_iff.mp hca
      exact this
    exact ⟨by linarith, hbe⟩
  · rintro ⟨rfl, rfl⟩
    simp [Real.exp_ne_zero]

theorem klGaussSum_nonpos (m lv mp lvp : List ℝ) :
    klGaussSum m lv mp lvp ≤ 0 := by
  induction m generalizing lv mp lvp with
  | nil => simp [klGaussSum]
  | cons a as ih =>
    cases lv with
    | nil => simp [klGaussSum]
    | cons b bs =>
      cases mp with
      | nil => simp [klGaussSum]
      | cons c cs =>
        cases lvp with
        | nil => simp [klGaussSum]
        | cons e es =>
          have h1 := klGaussTerm_nonpos a b c e
          have h2 := ih bs cs es
          simp only [klGaussSum]
          linarith

theorem klGaussSum_eq_zero_iff (m lv mp lvp : List ℝ)
    (h1 : m.length = lv.length) (h2 : lv.length = mp.length)
    (h3 : mp.length = lvp.length) :
    klGaussSum m lv mp lvp = 0 ↔ m = mp ∧ lv = lvp := by
  induction m generalizing lv mp lvp with
  | nil =>
    cases lv with
    | cons b bs => simp at h1
    | nil =>
      cases mp with
      | cons c cs => simp at h2
      | nil =>
        cases lvp with
        | cons e es => simp at h3
        | nil => simp [klGaussSum]
  | cons a as ih =>
    cases lv with
    | nil => simp at h1
    | cons b bs =>
      cases mp with
      | nil => simp at h2
      | cons c cs =>
        cases lvp with
        | nil => simp at h3
        | cons e es =>
          simp only [List.length_cons, Nat.add_right_cancel_iff] at h1 h2 h3
          simp only [klGaussSum, List.cons.injEq]
          constructor
          · intro h0
            have hA := klGaussTerm_nonpos a b c e
            have hB := klGaussSum_nonpos as bs cs es
            have hterm : klGaussTerm a b c e = 0 := by linarith
            have hrest : klGaussSum as bs cs es = 0 := by linarith
            obtain ⟨hac, hbe⟩ := (klGaussTerm_eq_zero_iff a b c e).mp hterm
            obtain ⟨hm, hl⟩ := (ih bs cs es h1 h2 h3).mp hrest
            exact ⟨⟨hac, hm⟩, ⟨hbe, hl⟩⟩
          · rintro ⟨⟨hac, hm⟩, ⟨hbe, hl⟩⟩
            rw [(klGaussTerm_eq_zero_iff a b c e).mpr ⟨hac, hbe⟩,
              (ih bs cs es h1 h2 h3).mpr ⟨hm, hl⟩]
            ring

/-- C5: the Gaussian-KL term of `loss_func` is exactly 0 when the posterior
moments equal the prior moments elementwise, and strictly positive whenever
they differ anywhere (for equally-shaped inputs). -/
theorem loss_kl_gaussian_zero_iff_matched (m lv mp lvp : List ℝ)
    (h1 : m.length = lv.length) (h2 : lv.length = mp.length)
    (h3 : mp.length = lvp.length) :
    (m = mp ∧ lv = lvp → loss_kl_gaussian m lv mp lvp = 0) ∧
      (¬(m = mp ∧ lv = lvp) → 0 < loss_kl_gaussian m lv mp lvp) := by
  have hiff := klGaussSum_eq_zero_iff m lv mp lvp h1 h2 h3
  have hnp := klGaussSum_nonpos m lv mp lvp
  constructor
  · intro he
    rw [loss_kl_gaussian, hiff.mpr he]
    ring
  · intro hne
    have hz : klGaussSum m lv mp lvp ≠ 0 := fun hc => hne (hiff.mp hc)
    have hlt : klGaussSum m lv mp lvp < 0 := lt_of_le_of_ne hnp hz
    rw [loss_kl_gaussian]
    nlinarith

/-- Witness for C5 at posterior mean `[0]` against prior mean `[1]` with
matched log-variances: the loss is strictly positive; and on fully matched
moments it is zero. -/
theorem loss_kl_gaussian_zero_iff_matched_witness :
    (([(0 : ℝ)].length = [(0 : ℝ)].length) ∧
        ([(0 : ℝ)].length = [(1 : ℝ)].length) ∧
        ([(1 : ℝ)].length = [(0 : ℝ)].length)) ∧
      (([(0 : ℝ)] = [(1 : ℝ)] ∧ [(0 : ℝ)] = [(0 : ℝ)] →
          loss_kl_gaussian [0] [0] [1] [0] = 0) ∧
        (¬([(0 : ℝ)] = [(1 : ℝ)] ∧ [(0 : ℝ)] = [(0 : ℝ)]) →
          0 < loss_kl_gaussian [0] [0] [1] [0])) :=
  ⟨⟨rfl, rfl, rfl⟩,
    loss_kl_gaussian_zero_iff_matched [0] [0] [1] [0] rfl rfl rfl⟩

/-- C3 (amended): in training mode the mixed logits and hence `prob` and
`log_prob` are computed without the relaxed one-hot code selections: they are
invariant under the gumbel noise drawn for the per-book code selection
(`uCode`), which feeds only `zq`.  They do, however, use the relaxed
codebook-selection weights `c_prob` (see the counterexample). -/
theorem quantizer_prob_independent_of_code_noise
    (d bookSize : Nat) (temp lpq lpqCls : ℝ) (books : List (List (List ℝ)))
    (ze : List (List ℝ)) (cLogit uCls : List ℝ)
    (uCode uCode' : List (List (List ℝ))) :
    (quantizerTrainExample d bookSize temp lpq lpqCls books ze cLogit uCls
        uCode).logits
      = (quantizerTrainExample d bookSize temp lpq lpqCls books ze cLogit
          uCls uCode').logits ∧
    (quantizerTrainExample d bookSize temp lpq lpqCls books ze cLogit uCls
        uCode).prob
      = (quantizerTrainExample d bookSize temp lpq lpqCls books ze cLogit
          uCls uCode').prob ∧
    (quantizerTrainExample d bookSize temp lpq lpqCls books ze cLogit uCls
        uCode).log_prob
      = (quantizerTrainExample d bookSize temp lpq lpqCls books ze cLogit
          uCls uCode').log_prob :=
  ⟨rfl, rfl, rfl⟩

/- Lemmas for the C3 counterexample. -/

theorem softmaxR_pair (x y : ℝ) :
    softmaxR [x, y]
      = [Real.exp x / (Real.exp x + Real.exp y),
         Real.exp y / (Real.exp x + Real.exp y)] := by
  simp [softmaxR]

theorem softmax2_fst_eq_half_iff (x y : ℝ) :
    Real.exp x / (Real.exp x + Real.exp y) = 1 / 2 ↔ x = y := by
  have hx := Real.exp_pos x
  have hy := Real.exp_pos y
  have hs : Real.exp x + Real.exp y ≠ 0 := by positivity
  rw [div_eq_iff hs]
  constructor
  · intro h
    have hxy : Real.exp x = Real.exp y := by linarith
    exact Real.exp_eq_exp.mp hxy
  · rintro rfl
    ring

theorem precisionTransform_zero : precisionTransform 0 = (1 / 4 : ℝ) := by
  unfold precisionTransform clampMin
  rw [Real.exp_zero, max_eq_left (by norm_num)]
  norm_num

theorem gumbelNoise_zero_lt_half :
    gumbelNoise 1e-10 0 < gumbelNoise 1e-10 (1 / 2) := by
  unfold gumbelNoise
  have h0 : (0 : ℝ) < 1e-10 := by norm_num
  have h2 : (0 : ℝ) < 1 / 2 + 1e-10 := by norm_num
  have hlt : Real.log 1e-10 < Real.log (1 / 2 + 1e-10) :=
    Real.log_lt_log h0 (by norm_num)
  have hA2pos : (0 : ℝ) < -Real.log (1 / 2 + 1e-10) + 1e-10 := by
    have : Real.log (1 / 2 + 1e-10) < 1e-10 := by
      rw [Real.log_lt_iff_lt_exp h2]
      have := Real.add_one_le_exp (1e-10 : ℝ)
      linarith
    linarith
  have hA0gt : -Real.log (1 / 2 + 1e-10) + 1e-10
      < -Real.log 1e-10 + 1e-10 := by linarith
  have := Real.log_lt_log hA2pos hA0gt
  simp only [zero_add]
  linarith

theorem mixedLogit_example (c0 c1 : ℝ) :
    mixedLogit 2 (precisionTransform 0) [c0, c1]
        [[[(0 : ℝ)], [2]], [[2], [0]]] [0]
      = [-c1, -c0] := by
  rw [precisionTransform_zero]
  simp [mixedLogit, bookLogit, calc_distance, dotRow, scaleVec, addVec]
  norm_num

theorem quantizerTrain_prob_example (u0 u1 : ℝ) :
    (quantizerTrainExample 1 2 1 0 0 [[[(0 : ℝ)], [2]], [[2], [0]]] [[0]]
        [0, 0] [u0, u1] [[[0, 0]], [[0, 0]]]).prob
      = [softmaxR (mixedLogit 2 (precisionTransform 0)
          (softmaxR [gumbelNoise 1e-10 u0, gumbelNoise 1e-10 u1])
          [[[(0 : ℝ)], [2]], [[2], [0]]] [0])] := by
  simp [quantizerTrainExample, gumbel_softmax_relaxation]

/-- C3 (counterexample): in training mode, `prob` is not invariant under the
sampled gumbel noise: with two codebooks, two runs that differ only in the
uniform samples drawn for the cluster-selection relaxation (`[0, 0]` versus
`[0, 1/2]`) produce different `prob` outputs, because the mixed logits are
weighted by the relaxed sample `c_prob`. -/
theorem quantizer_prob_depends_on_cluster_noise :
    (quantizerTrainExample 1 2 1 0 0 [[[(0 : ℝ)], [2]], [[2], [0]]] [[0]]
        [0, 0] [0, 0] [[[0, 0]], [[0, 0]]]).prob
      ≠ (quantizerTrainExample 1 2 1 0 0 [[[(0 : ℝ)], [2]], [[2], [0]]] [[0]]
        [0, 0] [0, 1 / 2] [[[0, 0]], [[0, 0]]]).prob := by
  intro hEq
  rw [quantizerTrain_prob_example, quantizerTrain_prob_example,
    softmaxR_pair, softmaxR_pair, mixedLogit_example, mixedLogit_example]
    at hEq
  have hEA : Real.exp (gumbelNoise 1e-10 0)
      / (Real.exp (gumbelNoise 1e-10 0) + Real.exp (gumbelNoise 1e-10 0))
      = 1 / 2 := (softmax2_fst_eq_half_iff _ _).mpr rfl
  rw [hEA] at hEq
  have hh : softmaxR [-(1 / 2 : ℝ), -(1 / 2)]
      = softmaxR [-(Real.exp (gumbelNoise 1e-10 (1 / 2))
          / (Real.exp (gumbelNoise 1e-10 0)
            + Real.exp (gumbelNoise 1e-10 (1 / 2)))),
        -(Real.exp (gumbelNoise 1e-10 0)
          / (Real.exp (gumbelNoise 1e-10 0)
            + Real.exp (gumbelNoise 1e-10 (1 / 2))))] := by
    injection hEq
  rw [softmaxR_pair, softmaxR_pair] at hh
  have h1 : Real.exp (-(1 / 2 : ℝ))
      / (Real.exp (-(1 / 2 : ℝ)) + Real.exp (-(1 / 2 : ℝ)))
      = Real.exp (-(Real.exp (gumbelNoise 1e-10 (1 / 2))
          / (Real.exp (gumbelNoise 1e-10 0)
            + Real.exp (gumbelNoise 1e-10 (1 / 2)))))
        / (Real.exp (-(Real.exp (gumbelNoise 1e-10 (1 / 2))
            / (Real.exp (gumbelNoise 1e-10 0)
              + Real.exp (gumbelNoise 1e-10 (1 / 2)))))
          + Real.exp (-(Real.exp (gumbelNoise 1e-10 0)
            / (Real.exp (gumbelNoise 1e-10 0)
              + Real.exp (gumbelNoise 1e-10 (1 / 2)))))) := by
    injection hh
  have hhalf := (softmax2_fst_eq_half_iff (-(1 / 2 : ℝ)) (-(1 / 2))).mpr rfl
  have hR := h1.symm.trans hhalf
  have hBeq := (softmax2_fst_eq_half_iff _ _).mp hR
  have hdiv : Real.exp (gumbelNoise 1e-10 (1 / 2))
      / (Real.exp (gumbelNoise 1e-10 0) + Real.exp (gumbelNoise 1e-10 (1 / 2)))
      = Real.exp (gumbelNoise 1e-10 0)
        / (Real.exp (gumbelNoise 1e-10 0)
          + Real.exp (gumbelNoise 1e-10 (1 / 2))) := by linarith
  have hSne : Real.exp (gumbelNoise 1e-10 0)
      + Real.exp (gumbelNoise 1e-10 (1 / 2)) ≠ 0 := by positivity
  have hee : Real.exp (gumbelNoise 1e-10 (1 / 2))
      = Real.exp (gumbelNoise 1e-10 0) :=
    mul_right_cancel₀ hSne ((div_eq_div_iff hSne hSne).mp hdiv)
  have hgeq := Real.exp_eq_exp.mp hee
  exact (ne_of_lt gumbelNoise_zero_lt_half) hgeq.symm
